import Mathlib

set_option linter.unusedSectionVars false

/-!
# Verification of `LruCache` (src/src/collections.rs)

A shallow embedding of the bounded least-recently-used cache from
`src/src/collections.rs`.  The Rust structure is

```
pub struct LruCache<K, V> {
    capacity: usize,
    data: HashMap<K, V>,
    order: Vec<K>,
}
```

The `HashMap<K, V>` is modelled as an association list `List (K × V)` with
unique keys; its observable operations (`get`, `insert` returning the previous
value, `remove`, `contains_key`, `len`, `is_empty`, `clear`) are embedded
below as `hmLookup`, `hmInsert`, `hmRemove`, …  Hash ordering is not
observable through any of these operations, so the association-list model is
faithful.  The `Vec<K>` recency order is a `List K` with the vector
operations `insert(0, k)` (cons), `pop` (`getLast?`/`dropLast`),
`retain` (`filter`) and `remove(position(k))` followed by `insert(0, k)`
(cons after `List.erase`, which drops the first occurrence — exactly what
`position`/`remove` do, and the removed element equals `k`).
-/

namespace Commons

variable {K V : Type} [DecidableEq K]

/-- Model of `HashMap::get`: the value bound to `k`, if any. -/
def hmLookup (m : List (K × V)) (k : K) : Option V :=
  match m with
  | [] => none
  | (k', v) :: rest => if k' = k then some v else hmLookup rest k

/-- Model of the map produced by `HashMap::insert(k, v)`: replaces the
binding of `k` when present, otherwise adds a new binding. -/
def hmInsert (m : List (K × V)) (k : K) (v : V) : List (K × V) :=
  match m with
  | [] => [(k, v)]
  | (k', v') :: rest =>
    if k' = k then (k, v) :: rest else (k', v') :: hmInsert rest k v

/-- Model of `HashMap::remove(k)`: the map without the binding of `k`,
together with the removed value, if any. -/
def hmRemove (m : List (K × V)) (k : K) : List (K × V) × Option V :=
  match m with
  | [] => ([], none)
  | (k', v') :: rest =>
    if k' = k then (rest, some v')
    else
      let r := hmRemove rest k
      ((k', v') :: r.1, r.2)

/-- Model of `HashMap::contains_key`. -/
def hmContains (m : List (K × V)) (k : K) : Bool :=
  (hmLookup m k).isSome

/-- The LRU cache of `src/src/collections.rs`. -/
structure LruCache (K V : Type) where
  capacity : Nat
  data : List (K × V)
  order : List K
deriving DecidableEq

namespace LruCache

/-- Rust `LruCache::new(capacity)`. -/
def new (K V : Type) (capacity : Nat) : LruCache K V :=
  { capacity := capacity, data := [], order := [] }

/-- Rust `LruCache::move_to_front` (private helper): if `key` occurs in `order`,
remove its first occurrence and re-insert it at index 0. -/
def move_to_front (c : LruCache K V) (key : K) : LruCache K V :=
  if key ∈ c.order then { c with order := key :: c.order.erase key } else c

/-- One-key-per-iteration body of the `evict_if_needed` while loop.  Each
iteration pops the last key of `order`, so the loop runs at most
`c.order.length` times; that bound is made the structural fuel so that the
function evaluates by reduction. -/
def evictLoop : Nat → LruCache K V → LruCache K V
  | 0, c => c
  | fuel + 1, c =>
    if c.order.length > c.capacity then
      match c.order.getLast? with
      | some key =>
          evictLoop fuel
            { c with data := (hmRemove c.data key).1,
                     order := c.order.dropLast }
      | none => c
    else c

/-- Rust `LruCache::evict_if_needed` (private helper): while the recency order is
longer than the capacity, pop the last key of `order` and remove it from
`data`. -/
def evict_if_needed (c : LruCache K V) : LruCache K V :=
  evictLoop c.order.length c

/-- Rust `LruCache::insert`: returns the updated cache and the previous value. -/
def insert (c : LruCache K V) (key : K) (value : V) :
    LruCache K V × Option V :=
  match hmLookup c.data key with
  | some old_value =>
      -- Key already existed, update order
      (move_to_front { c with data := hmInsert c.data key value } key,
       some old_value)
  | none =>
      -- New key
      (evict_if_needed
        { c with data := hmInsert c.data key value, order := key :: c.order },
       none)

/-- Rust `LruCache::get`: returns the updated cache and the value. -/
def get (c : LruCache K V) (key : K) : LruCache K V × Option V :=
  if hmContains c.data key then
    let c' := move_to_front c key
    (c', hmLookup c'.data key)
  else
    (c, none)

/-- Rust `LruCache::peek`: takes `&self`, so the cache state cannot change. -/
def peek (c : LruCache K V) (key : K) : Option V :=
  hmLookup c.data key

/-- Rust `LruCache::remove`: returns the updated cache and the removed value. -/
def remove (c : LruCache K V) (key : K) : LruCache K V × Option V :=
  match hmRemove c.data key with
  | (data', some value) =>
      ({ c with data := data',
                order := c.order.filter (fun k => k != key) },
       some value)
  | (data', none) => ({ c with data := data' }, none)

/-- Rust `LruCache::len`. -/
def len (c : LruCache K V) : Nat :=
  c.data.length

/-- Rust `LruCache::is_empty`. -/
def is_empty (c : LruCache K V) : Bool :=
  c.data.isEmpty

/-- Rust `LruCache::clear`. -/
def clear (c : LruCache K V) : LruCache K V :=
  { c with data := [], order := [] }

end LruCache

/-- One public operation on the cache (the calls a client can make). -/
inductive Op (K V : Type) where
  | insert (k : K) (v : V)
  | get (k : K)
  | peek (k : K)
  | remove (k : K)
  | len
  | is_empty
  | clear

/-- The state transition of one public operation (return values dropped;
`peek`, `len` and `is_empty` take `&self` and cannot change the state). -/
def applyOp (c : LruCache K V) : Op K V → LruCache K V
  | Op.insert k v => (c.insert k v).1
  | Op.get k => (c.get k).1
  | Op.peek _ => c
  | Op.remove k => (c.remove k).1
  | Op.len => c
  | Op.is_empty => c
  | Op.clear => c.clear

/-- Run a sequence of public operations from a starting state. -/
def runOps (c : LruCache K V) (ops : List (Op K V)) : LruCache K V :=
  ops.foldl applyOp c

/-- Internal well-formedness: unique keys in the map model, no duplicates in
the recency order, the same keys on both sides, matching sizes, and the
capacity bound. -/
structure WF (c : LruCache K V) : Prop where
  keys_nodup : (c.data.map Prod.fst).Nodup
  order_nodup : c.order.Nodup
  keys_sub : ∀ k ∈ c.data.map Prod.fst, k ∈ c.order
  order_sub : ∀ k ∈ c.order, k ∈ c.data.map Prod.fst
  cap_bound : c.order.length ≤ c.capacity
  len_eq : c.data.length = c.order.length

instance (c : LruCache K V) : Decidable (WF c) :=
  decidable_of_iff
    ((c.data.map Prod.fst).Nodup ∧ c.order.Nodup ∧
      (∀ k ∈ c.data.map Prod.fst, k ∈ c.order) ∧
      (∀ k ∈ c.order, k ∈ c.data.map Prod.fst) ∧
      c.order.length ≤ c.capacity ∧ c.data.length = c.order.length)
    (by
      constructor
      · rintro ⟨a, b, c, d, e, f⟩
        exact ⟨a, b, c, d, e, f⟩
      · rintro ⟨a, b, c, d, e, f⟩
        exact ⟨a, b, c, d, e, f⟩)

theorem WF.mem_iff {c : LruCache K V} (h : WF c) (k : K) :
    k ∈ c.data.map Prod.fst ↔ k ∈ c.order :=
  ⟨h.keys_sub k, h.order_sub k⟩

/-! ## Lemmas about the HashMap model -/

theorem hmLookup_isSome (m : List (K × V)) (k : K) :
    (hmLookup m k).isSome ↔ k ∈ m.map Prod.fst := by
  induction m with
  | nil => simp [hmLookup]
  | cons p rest ih =>
    obtain ⟨k', v⟩ := p
    simp only [List.map_cons, List.mem_cons]
    by_cases h : k' = k
    · simp [hmLookup, h]
    · rw [hmLookup]
      simp only [if_neg h, ih]
      constructor
      · exact fun hm => Or.inr hm
      · rintro (rfl | hm)
        · exact absurd rfl h
        · exact hm

theorem hmLookup_eq_none (m : List (K × V)) (k : K) :
    hmLookup m k = none ↔ k ∉ m.map Prod.fst := by
  rw [← hmLookup_isSome, Option.not_isSome_iff_eq_none]

theorem hmInsert_map_fst_of_mem (m : List (K × V)) (k : K) (v : V)
    (h : k ∈ m.map Prod.fst) :
    (hmInsert m k v).map Prod.fst = m.map Prod.fst := by
  induction m with
  | nil => simp at h
  | cons p rest ih =>
    obtain ⟨k', v'⟩ := p
    by_cases hk : k' = k
    · simp [hmInsert, hk]
    · simp only [List.map_cons, List.mem_cons] at h
      have hm : k ∈ rest.map Prod.fst := by
        rcases h with h1 | h1
        · exact absurd h1.symm hk
        · exact h1
      simp [hmInsert, hk, ih hm]

theorem hmInsert_map_fst_of_not_mem (m : List (K × V)) (k : K) (v : V)
    (h : k ∉ m.map Prod.fst) :
    (hmInsert m k v).map Prod.fst = m.map Prod.fst ++ [k] := by
  induction m with
  | nil => simp [hmInsert]
  | cons p rest ih =>
    obtain ⟨k', v'⟩ := p
    simp only [List.map_cons, List.mem_cons] at h
    push_neg at h
    simp [hmInsert, Ne.symm h.1, ih h.2]

theorem hmLookup_hmInsert_self (m : List (K × V)) (k : K) (v : V) :
    hmLookup (hmInsert m k v) k = some v := by
  induction m with
  | nil => simp [hmInsert, hmLookup]
  | cons p rest ih =>
    obtain ⟨k', v'⟩ := p
    by_cases hk : k' = k <;> simp [hmInsert, hmLookup, hk, ih]

theorem hmLookup_hmInsert_ne (m : List (K × V)) (k k' : K) (v : V)
    (h : k' ≠ k) :
    hmLookup (hmInsert m k v) k' = hmLookup m k' := by
  induction m with
  | nil => simp [hmInsert, hmLookup, Ne.symm h]
  | cons p rest ih =>
    obtain ⟨k₀, v₀⟩ := p
    by_cases hk : k₀ = k
    · subst hk
      simp [hmInsert, hmLookup, Ne.symm h]
    · simp [hmInsert, hmLookup, hk, ih]

theorem hmInsert_length_of_mem (m : List (K × V)) (k : K) (v : V)
    (h : k ∈ m.map Prod.fst) :
    (hmInsert m k v).length = m.length := by
  have := hmInsert_map_fst_of_mem m k v h
  have hlen := congrArg List.length this
  simpa using hlen

theorem hmInsert_length_of_not_mem (m : List (K × V)) (k : K) (v : V)
    (h : k ∉ m.map Prod.fst) :
    (hmInsert m k v).length = m.length + 1 := by
  have := hmInsert_map_fst_of_not_mem m k v h
  have hlen := congrArg List.length this
  simpa using hlen

theorem hmRemove_snd (m : List (K × V)) (k : K) :
    (hmRemove m k).2 = hmLookup m k := by
  induction m with
  | nil => simp [hmRemove, hmLookup]
  | cons p rest ih =>
    obtain ⟨k', v'⟩ := p
    by_cases hk : k' = k <;> simp [hmRemove, hmLookup, hk, ih]

theorem hmRemove_fst_of_not_mem (m : List (K × V)) (k : K)
    (h : k ∉ m.map Prod.fst) :
    (hmRemove m k).1 = m := by
  induction m with
  | nil => simp [hmRemove]
  | cons p rest ih =>
    obtain ⟨k', v'⟩ := p
    simp only [List.map_cons, List.mem_cons] at h
    push_neg at h
    simp [hmRemove, Ne.symm h.1, ih h.2]

theorem hmRemove_map_fst (m : List (K × V)) (k : K) :
    (hmRemove m k).1.map Prod.fst = (m.map Prod.fst).erase k := by
  induction m with
  | nil => simp [hmRemove]
  | cons p rest ih =>
    obtain ⟨k', v'⟩ := p
    by_cases hk : k' = k
    · simp [hmRemove, hk, List.erase_cons_head]
    · simp [hmRemove, hk, List.erase_cons_tail, ih]

theorem hmLookup_hmRemove_ne (m : List (K × V)) (k k' : K) (h : k' ≠ k) :
    hmLookup (hmRemove m k).1 k' = hmLookup m k' := by
  induction m with
  | nil => simp [hmRemove]
  | cons p rest ih =>
    obtain ⟨k₀, v₀⟩ := p
    by_cases hk : k₀ = k
    · subst hk
      simp [hmRemove, hmLookup, Ne.symm h]
    · simp [hmRemove, hmLookup, hk, ih]

theorem hmLookup_hmRemove_self (m : List (K × V)) (k : K)
    (h : (m.map Prod.fst).Nodup) :
    hmLookup (hmRemove m k).1 k = none := by
  rw [hmLookup_eq_none, hmRemove_map_fst]
  intro hmem
  exact (List.Nodup.mem_erase_iff h).mp hmem |>.1 rfl

theorem hmRemove_length_of_mem (m : List (K × V)) (k : K)
    (h : k ∈ m.map Prod.fst) :
    (hmRemove m k).1.length = m.length - 1 := by
  have := congrArg List.length (hmRemove_map_fst m k)
  simpa [List.length_erase_of_mem h] using this

theorem hmInsert_nodup (m : List (K × V)) (k : K) (v : V)
    (h : (m.map Prod.fst).Nodup) :
    ((hmInsert m k v).map Prod.fst).Nodup := by
  by_cases hk : k ∈ m.map Prod.fst
  · rw [hmInsert_map_fst_of_mem m k v hk]; exact h
  · rw [hmInsert_map_fst_of_not_mem m k v hk]
    rw [List.nodup_append]
    refine ⟨h, List.nodup_singleton k, ?_⟩
    intro a ha hb
    rw [List.mem_singleton] at hb
    subst hb
    exact hk ha

theorem hmRemove_nodup (m : List (K × V)) (k : K)
    (h : (m.map Prod.fst).Nodup) :
    ((hmRemove m k).1.map Prod.fst).Nodup := by
  rw [hmRemove_map_fst]
  exact h.erase k

/-! ## Lemmas about `move_to_front` -/

theorem move_to_front_capacity (c : LruCache K V) (key : K) :
    (c.move_to_front key).capacity = c.capacity := by
  unfold LruCache.move_to_front
  split <;> rfl

theorem move_to_front_data (c : LruCache K V) (key : K) :
    (c.move_to_front key).data = c.data := by
  unfold LruCache.move_to_front
  split <;> rfl

theorem move_to_front_order_of_mem (c : LruCache K V) (key : K)
    (h : key ∈ c.order) :
    (c.move_to_front key).order = key :: c.order.erase key := by
  unfold LruCache.move_to_front
  rw [if_pos h]

theorem move_to_front_of_not_mem (c : LruCache K V) (key : K)
    (h : key ∉ c.order) :
    c.move_to_front key = c := by
  unfold LruCache.move_to_front
  rw [if_neg h]

theorem move_to_front_mem_iff (c : LruCache K V) (key k : K) :
    k ∈ (c.move_to_front key).order ↔ k ∈ c.order := by
  unfold LruCache.move_to_front
  split
  · rename_i h
    simp only [List.mem_cons]
    by_cases hk : k = key
    · subst hk; simp [h]
    · simp [hk, List.mem_erase_of_ne hk]
  · rfl

theorem move_to_front_length (c : LruCache K V) (key : K) :
    (c.move_to_front key).order.length = c.order.length := by
  unfold LruCache.move_to_front
  split
  · rename_i h
    have hpos : 0 < c.order.length := List.length_pos.mpr (List.ne_nil_of_mem h)
    simp only [List.length_cons, List.length_erase_of_mem h]
    omega
  · rfl

theorem move_to_front_nodup (c : LruCache K V) (key : K) (h : c.order.Nodup) :
    (c.move_to_front key).order.Nodup := by
  unfold LruCache.move_to_front
  split
  · rename_i hmem
    refine List.nodup_cons.mpr ⟨?_, h.erase key⟩
    intro hk
    exact ((List.Nodup.mem_erase_iff h).mp hk).1 rfl
  · exact h

/-! ## Lemmas about `evict_if_needed` -/

theorem evictLoop_of_le (fuel : Nat) (c : LruCache K V)
    (hle : ¬ c.order.length > c.capacity) : LruCache.evictLoop fuel c = c := by
  cases fuel with
  | zero => rfl
  | succ n =>
      simp only [LruCache.evictLoop]
      rw [if_neg hle]

theorem evict_step (c : LruCache K V) (hgt : c.order.length > c.capacity)
    (hne : c.order ≠ []) :
    c.evict_if_needed = LruCache.evict_if_needed
      { c with data := (hmRemove c.data (c.order.getLast hne)).1,
               order := c.order.dropLast } := by
  have hpos : 0 < c.order.length := List.length_pos.mpr hne
  obtain ⟨n, hn⟩ : ∃ n, c.order.length = n + 1 := ⟨c.order.length - 1, by omega⟩
  show LruCache.evictLoop c.order.length c =
    LruCache.evictLoop c.order.dropLast.length
      { c with data := (hmRemove c.data (c.order.getLast hne)).1,
               order := c.order.dropLast }
  rw [List.length_dropLast, hn]
  simp only [Nat.add_sub_cancel]
  simp only [LruCache.evictLoop]
  rw [if_pos hgt, List.getLast?_eq_getLast_of_ne_nil hne]

theorem evict_done (c : LruCache K V) (hle : ¬ c.order.length > c.capacity) :
    c.evict_if_needed = c :=
  evictLoop_of_le c.order.length c hle

/-- Full behaviour of the eviction loop: it preserves well-formedness,
establishes the capacity bound, never adds keys, and never changes the value
of a surviving key. -/
theorem evict_if_needed_spec (c : LruCache K V)
    (h1 : (c.data.map Prod.fst).Nodup) (h2 : c.order.Nodup)
    (h3 : ∀ k, k ∈ c.data.map Prod.fst ↔ k ∈ c.order)
    (h4 : c.data.length = c.order.length) :
    c.evict_if_needed.capacity = c.capacity ∧
    (c.evict_if_needed.data.map Prod.fst).Nodup ∧
    c.evict_if_needed.order.Nodup ∧
    (∀ k, k ∈ c.evict_if_needed.data.map Prod.fst ↔
      k ∈ c.evict_if_needed.order) ∧
    c.evict_if_needed.data.length = c.evict_if_needed.order.length ∧
    c.evict_if_needed.order.length ≤ c.capacity ∧
    (∀ k ∈ c.evict_if_needed.order, k ∈ c.order) ∧
    (∀ k ∈ c.evict_if_needed.order,
      hmLookup c.evict_if_needed.data k = hmLookup c.data k) := by
  by_cases hgt : c.order.length > c.capacity
  · have hne : c.order ≠ [] := by
      intro h0
      rw [h0] at hgt
      exact absurd hgt (by simp)
    have hkey_mem_order : c.order.getLast hne ∈ c.order := List.getLast_mem hne
    have hkey_mem_data : c.order.getLast hne ∈ c.data.map Prod.fst :=
      (h3 _).mpr hkey_mem_order
    have hdecomp : c.order.dropLast ++ [c.order.getLast hne] = c.order :=
      List.dropLast_append_getLast hne
    have h2' : (c.order.dropLast ++ [c.order.getLast hne]).Nodup := by
      rw [hdecomp]; exact h2
    obtain ⟨hnd_drop, -, hdisj⟩ := List.nodup_append.mp h2'
    have hkey_not_drop : c.order.getLast hne ∉ c.order.dropLast := by
      intro hmem
      exact hdisj hmem (List.mem_singleton.mpr rfl)
    have hmem_drop : ∀ k, k ∈ c.order.dropLast ↔
        (k ∈ c.order ∧ k ≠ c.order.getLast hne) := by
      intro k
      constructor
      · intro hk
        refine ⟨?_, ?_⟩
        · rw [← hdecomp]; exact List.mem_append_left _ hk
        · intro heq
          rw [heq] at hk
          exact hkey_not_drop hk
      · rintro ⟨hk, hne'⟩
        rw [← hdecomp] at hk
        rcases List.mem_append.mp hk with h' | h'
        · exact h'
        · exact absurd (List.mem_singleton.mp h') hne'
    have IH := evict_if_needed_spec
      { c with data := (hmRemove c.data (c.order.getLast hne)).1,
               order := c.order.dropLast }
      (hmRemove_nodup _ _ h1)
      hnd_drop
      (by
        intro k
        show k ∈ (hmRemove c.data (c.order.getLast hne)).1.map Prod.fst ↔
          k ∈ c.order.dropLast
        rw [hmRemove_map_fst, List.Nodup.mem_erase_iff h1, hmem_drop, h3]
        tauto)
      (by
        show (hmRemove c.data (c.order.getLast hne)).1.length =
          c.order.dropLast.length
        rw [hmRemove_length_of_mem _ _ hkey_mem_data, List.length_dropLast, h4])
    rw [evict_step c hgt hne]
    obtain ⟨IH1, IH2, IH3, IH4, IH5, IH6, IH7, IH8⟩ := IH
    refine ⟨IH1, IH2, IH3, IH4, IH5, IH6, ?_, ?_⟩
    · intro k hk
      have := IH7 k hk
      exact ((hmem_drop k).mp this).1
    · intro k hk
      have hkd : k ∈ c.order.dropLast := IH7 k hk
      have hkne : k ≠ c.order.getLast hne := ((hmem_drop k).mp hkd).2
      rw [IH8 k hk]
      exact hmLookup_hmRemove_ne c.data _ k hkne
  · rw [evict_done c hgt]
    exact ⟨rfl, h1, h2, h3, h4, by omega, fun k hk => hk, fun k _ => rfl⟩
termination_by c.order.length
decreasing_by
  simp only [List.length_dropLast]
  omega

/-! ## Branch equations for the public operations -/

theorem insert_present_eq (c : LruCache K V) (key : K) (value old : V)
    (h : hmLookup c.data key = some old) :
    c.insert key value =
      (LruCache.move_to_front { c with data := hmInsert c.data key value } key,
       some old) := by
  unfold LruCache.insert
  rw [h]

theorem insert_absent_eq (c : LruCache K V) (key : K) (value : V)
    (h : hmLookup c.data key = none) :
    c.insert key value =
      (LruCache.evict_if_needed
        { c with data := hmInsert c.data key value, order := key :: c.order },
       none) := by
  unfold LruCache.insert
  rw [h]

theorem get_present_eq (c : LruCache K V) (key : K) (v : V)
    (h : hmLookup c.data key = some v) :
    c.get key = (c.move_to_front key, some v) := by
  have hc : hmContains c.data key = true := by
    simp [hmContains, h]
  unfold LruCache.get
  rw [hc]
  simp only [if_true]
  rw [move_to_front_data, h]

theorem get_absent_eq (c : LruCache K V) (key : K)
    (h : hmLookup c.data key = none) :
    c.get key = (c, none) := by
  have hc : hmContains c.data key = false := by
    simp [hmContains, h]
  unfold LruCache.get
  rw [hc]
  simp only [Bool.false_eq_true, if_false]

theorem remove_present_eq (c : LruCache K V) (key : K) (value : V)
    (h : hmLookup c.data key = some value) :
    c.remove key =
      ({ c with data := (hmRemove c.data key).1,
                order := c.order.filter (fun k => k != key) },
       some value) := by
  have h2 : hmRemove c.data key = ((hmRemove c.data key).1, some value) :=
    Prod.ext rfl (by rw [hmRemove_snd]; exact h)
  conv_lhs => rw [LruCache.remove, h2]

theorem remove_absent_eq (c : LruCache K V) (key : K)
    (h : hmLookup c.data key = none) :
    c.remove key = (c, none) := by
  have h1 : (hmRemove c.data key).1 = c.data :=
    hmRemove_fst_of_not_mem c.data key ((hmLookup_eq_none c.data key).mp h)
  have h2 : hmRemove c.data key = (c.data, none) :=
    Prod.ext h1 (by rw [hmRemove_snd]; exact h)
  conv_lhs => rw [LruCache.remove, h2]

theorem evict_capacity (c : LruCache K V) :
    c.evict_if_needed.capacity = c.capacity := by
  by_cases hgt : c.order.length > c.capacity
  · have hne : c.order ≠ [] := by
      intro h0
      rw [h0] at hgt
      exact absurd hgt (by simp)
    rw [evict_step c hgt hne]
    rw [evict_capacity]
  · rw [evict_done c hgt]
termination_by c.order.length
decreasing_by
  simp only [List.length_dropLast]
  omega

theorem insert_capacity (c : LruCache K V) (key : K) (value : V) :
    (c.insert key value).1.capacity = c.capacity := by
  cases hl : hmLookup c.data key with
  | some old =>
      rw [insert_present_eq c key value old hl]
      rw [move_to_front_capacity]
  | none =>
      rw [insert_absent_eq c key value hl]
      rw [evict_capacity]

/-! ## Preservation of well-formedness -/

theorem WF_new (cap : Nat) : WF (LruCache.new K V cap) := by
  constructor <;> simp [LruCache.new]

theorem WF_move_to_front {c : LruCache K V} (h : WF c) (key : K) :
    WF (c.move_to_front key) := by
  constructor
  · rw [move_to_front_data]
    exact h.keys_nodup
  · exact move_to_front_nodup c key h.order_nodup
  · intro k hk
    rw [move_to_front_data] at hk
    rw [move_to_front_mem_iff]
    exact h.keys_sub k hk
  · intro k hk
    rw [move_to_front_data]
    exact h.order_sub k ((move_to_front_mem_iff c key k).mp hk)
  · rw [move_to_front_length, move_to_front_capacity]
    exact h.cap_bound
  · rw [move_to_front_data, move_to_front_length]
    exact h.len_eq

theorem WF_insert {c : LruCache K V} (hwf : WF c) (key : K) (value : V) :
    WF (c.insert key value).1 := by
  cases hl : hmLookup c.data key with
  | some old =>
      rw [insert_present_eq c key value old hl]
      have hkm : key ∈ c.data.map Prod.fst :=
        (hmLookup_isSome c.data key).mp (by rw [hl]; rfl)
      have hkeys : (hmInsert c.data key value).map Prod.fst =
          c.data.map Prod.fst := hmInsert_map_fst_of_mem c.data key value hkm
      apply WF_move_to_front
      constructor
      · show ((hmInsert c.data key value).map Prod.fst).Nodup
        rw [hkeys]
        exact hwf.keys_nodup
      · exact hwf.order_nodup
      · intro k hk
        have hk' : k ∈ (hmInsert c.data key value).map Prod.fst := hk
        rw [hkeys] at hk'
        exact hwf.keys_sub k hk'
      · intro k hk
        show k ∈ (hmInsert c.data key value).map Prod.fst
        rw [hkeys]
        exact hwf.order_sub k hk
      · exact hwf.cap_bound
      · show (hmInsert c.data key value).length = c.order.length
        rw [hmInsert_length_of_mem c.data key value hkm]
        exact hwf.len_eq
  | none =>
      rw [insert_absent_eq c key value hl]
      have hkm : key ∉ c.data.map Prod.fst := (hmLookup_eq_none c.data key).mp hl
      have hko : key ∉ c.order := fun hk => hkm (hwf.order_sub key hk)
      have hkeys : (hmInsert c.data key value).map Prod.fst =
          c.data.map Prod.fst ++ [key] :=
        hmInsert_map_fst_of_not_mem c.data key value hkm
      have hmem : ∀ k, k ∈ (hmInsert c.data key value).map Prod.fst ↔
          k ∈ key :: c.order := by
        intro k
        rw [hkeys, List.mem_append, List.mem_singleton, List.mem_cons,
            hwf.mem_iff k]
        tauto
      have spec := evict_if_needed_spec
        { c with data := hmInsert c.data key value, order := key :: c.order }
        (by
          show ((hmInsert c.data key value).map Prod.fst).Nodup
          rw [hkeys]
          rw [List.nodup_append]
          refine ⟨hwf.keys_nodup, List.nodup_singleton key, ?_⟩
          intro a ha hb
          rw [List.mem_singleton] at hb
          subst hb
          exact hkm ha)
        (List.nodup_cons.mpr ⟨hko, hwf.order_nodup⟩)
        hmem
        (by
          show (hmInsert c.data key value).length = (key :: c.order).length
          rw [hmInsert_length_of_not_mem c.data key value hkm, List.length_cons,
              hwf.len_eq])
      obtain ⟨s1, s2, s3, s4, s5, s6, s7, s8⟩ := spec
      exact ⟨s2, s3, fun k hk => (s4 k).mp hk, fun k hk => (s4 k).mpr hk,
             le_of_le_of_eq s6 s1.symm, s5⟩

theorem WF_get {c : LruCache K V} (hwf : WF c) (key : K) :
    WF (c.get key).1 := by
  cases hl : hmLookup c.data key with
  | some v =>
      rw [get_present_eq c key v hl]
      exact WF_move_to_front hwf key
  | none =>
      rw [get_absent_eq c key hl]
      exact hwf

theorem WF_remove {c : LruCache K V} (hwf : WF c) (key : K) :
    WF (c.remove key).1 := by
  cases hl : hmLookup c.data key with
  | some v =>
      rw [remove_present_eq c key v hl]
      have hkm : key ∈ c.data.map Prod.fst :=
        (hmLookup_isSome c.data key).mp (by rw [hl]; rfl)
      have hko : key ∈ c.order := hwf.keys_sub key hkm
      have hfilter : c.order.filter (fun k => k != key) = c.order.erase key :=
        (List.Nodup.erase_eq_filter hwf.order_nodup key).symm
      constructor
      · exact hmRemove_nodup c.data key hwf.keys_nodup
      · show (c.order.filter (fun k => k != key)).Nodup
        rw [hfilter]
        exact hwf.order_nodup.erase key
      · intro k hk
        show k ∈ c.order.filter (fun k => k != key)
        rw [hfilter]
        have hk' : k ∈ (hmRemove c.data key).1.map Prod.fst := hk
        rw [hmRemove_map_fst] at hk'
        have := (List.Nodup.mem_erase_iff hwf.keys_nodup).mp hk'
        exact (List.Nodup.mem_erase_iff hwf.order_nodup).mpr
          ⟨this.1, hwf.keys_sub k this.2⟩
      · intro k hk
        show k ∈ (hmRemove c.data key).1.map Prod.fst
        rw [hfilter] at hk
        have := (List.Nodup.mem_erase_iff hwf.order_nodup).mp hk
        rw [hmRemove_map_fst]
        exact (List.Nodup.mem_erase_iff hwf.keys_nodup).mpr
          ⟨this.1, hwf.order_sub k this.2⟩
      · show (c.order.filter (fun k => k != key)).length ≤ c.capacity
        calc (c.order.filter (fun k => k != key)).length
            ≤ c.order.length := List.length_filter_le _ _
          _ ≤ c.capacity := hwf.cap_bound
      · show (hmRemove c.data key).1.length =
          (c.order.filter (fun k => k != key)).length
        rw [hfilter, hmRemove_length_of_mem c.data key hkm,
            List.length_erase_of_mem hko, hwf.len_eq]
  | none =>
      rw [remove_absent_eq c key hl]
      exact hwf

theorem WF_clear {c : LruCache K V} (_ : WF c) : WF c.clear := by
  constructor <;> simp [LruCache.clear]

theorem WF_applyOp {c : LruCache K V} (hwf : WF c) (op : Op K V) :
    WF (applyOp c op) := by
  cases op with
  | insert k v => exact WF_insert hwf k v
  | get k => exact WF_get hwf k
  | peek k => exact hwf
  | remove k => exact WF_remove hwf k
  | len => exact hwf
  | is_empty => exact hwf
  | clear => exact WF_clear hwf

theorem WF_runOps {c : LruCache K V} (hwf : WF c) (ops : List (Op K V)) :
    WF (runOps c ops) := by
  induction ops generalizing c with
  | nil => exact hwf
  | cons op rest ih => exact ih (WF_applyOp hwf op)

/-! ## Detailed behaviour of the operations -/

theorem insert_present_spec (c : LruCache K V) (hwf : WF c) (key : K)
    (value old : V) (h : hmLookup c.data key = some old) :
    (c.insert key value).2 = some old ∧
    (c.insert key value).1.capacity = c.capacity ∧
    (c.insert key value).1.order = key :: c.order.erase key ∧
    hmLookup (c.insert key value).1.data key = some value ∧
    (∀ k, k ≠ key → hmLookup (c.insert key value).1.data k = hmLookup c.data k) ∧
    (∀ k, k ∈ (c.insert key value).1.order ↔ k ∈ c.order) ∧
    (c.insert key value).1.len = c.len := by
  have hkm : key ∈ c.data.map Prod.fst :=
    (hmLookup_isSome c.data key).mp (by rw [h]; rfl)
  have hko : key ∈ c.order := hwf.keys_sub key hkm
  rw [insert_present_eq c key value old h]
  refine ⟨rfl, move_to_front_capacity _ key, ?_, ?_, ?_, ?_, ?_⟩
  · exact move_to_front_order_of_mem _ key hko
  · show hmLookup (LruCache.move_to_front
      { c with data := hmInsert c.data key value } key).data key = some value
    rw [move_to_front_data]
    exact hmLookup_hmInsert_self c.data key value
  · intro k hk
    show hmLookup (LruCache.move_to_front
      { c with data := hmInsert c.data key value } key).data k = hmLookup c.data k
    rw [move_to_front_data]
    exact hmLookup_hmInsert_ne c.data key k value hk
  · intro k
    exact move_to_front_mem_iff _ key k
  · show (LruCache.move_to_front
      { c with data := hmInsert c.data key value } key).data.length = c.data.length
    rw [move_to_front_data]
    exact hmInsert_length_of_mem c.data key value hkm

theorem insert_absent_no_overflow (c : LruCache K V) (key : K) (value : V)
    (h : hmLookup c.data key = none) (hlt : c.order.length < c.capacity) :
    c.insert key value =
      ({ c with data := hmInsert c.data key value, order := key :: c.order },
       none) := by
  rw [insert_absent_eq c key value h]
  rw [evict_done]
  show ¬ (key :: c.order).length > c.capacity
  simp only [List.length_cons]
  omega

theorem insert_absent_overflow (c : LruCache K V) (key : K) (value : V)
    (h : hmLookup c.data key = none) (hfull : c.order.length = c.capacity) :
    c.insert key value =
      ({ c with
          data := (hmRemove (hmInsert c.data key value)
            ((key :: c.order).getLast (List.cons_ne_nil key c.order))).1,
          order := (key :: c.order).dropLast },
       none) := by
  rw [insert_absent_eq c key value h]
  rw [evict_step _ (by show (key :: c.order).length > c.capacity; simp; omega)
        (List.cons_ne_nil key c.order)]
  rw [evict_done]
  show ¬ (key :: c.order).dropLast.length > c.capacity
  simp only [List.length_dropLast, List.length_cons]
  omega

theorem insert_mid_props (c : LruCache K V) (hwf : WF c) (key : K) (value : V)
    (h : hmLookup c.data key = none) :
    ((hmInsert c.data key value).map Prod.fst).Nodup ∧
    (key :: c.order).Nodup ∧
    (∀ k, k ∈ (hmInsert c.data key value).map Prod.fst ↔ k ∈ key :: c.order) ∧
    (hmInsert c.data key value).length = (key :: c.order).length := by
  have hkm : key ∉ c.data.map Prod.fst := (hmLookup_eq_none c.data key).mp h
  have hko : key ∉ c.order := fun hk => hkm (hwf.order_sub key hk)
  have hkeys : (hmInsert c.data key value).map Prod.fst =
      c.data.map Prod.fst ++ [key] :=
    hmInsert_map_fst_of_not_mem c.data key value hkm
  refine ⟨?_, List.nodup_cons.mpr ⟨hko, hwf.order_nodup⟩, ?_, ?_⟩
  · rw [hkeys, List.nodup_append]
    refine ⟨hwf.keys_nodup, List.nodup_singleton key, ?_⟩
    intro a ha hb
    rw [List.mem_singleton] at hb
    subst hb
    exact hkm ha
  · intro k
    rw [hkeys, List.mem_append, List.mem_singleton, List.mem_cons,
        hwf.mem_iff k]
    tauto
  · rw [hmInsert_length_of_not_mem c.data key value hkm, List.length_cons,
        hwf.len_eq]

theorem evict_lookup_some (c : LruCache K V)
    (h1 : (c.data.map Prod.fst).Nodup) (h2 : c.order.Nodup)
    (h3 : ∀ k, k ∈ c.data.map Prod.fst ↔ k ∈ c.order)
    (h4 : c.data.length = c.order.length) (k : K) (w : V)
    (hw : hmLookup c.evict_if_needed.data k = some w) :
    hmLookup c.data k = some w := by
  obtain ⟨s1, s2, s3, s4, s5, s6, s7, s8⟩ := evict_if_needed_spec c h1 h2 h3 h4
  have hk : k ∈ c.evict_if_needed.data.map Prod.fst :=
    (hmLookup_isSome _ k).mp (by rw [hw]; rfl)
  rw [← s8 k ((s4 k).mp hk)]
  exact hw

theorem insert_lookup_key (c : LruCache K V) (hwf : WF c) (key : K)
    (value : V) :
    ∀ w, hmLookup (c.insert key value).1.data key = some w → w = value := by
  intro w hw
  cases hl : hmLookup c.data key with
  | some old =>
      rw [insert_present_eq c key value old hl] at hw
      have hw' : hmLookup (LruCache.move_to_front
          { c with data := hmInsert c.data key value } key).data key =
          some w := hw
      rw [move_to_front_data, hmLookup_hmInsert_self] at hw'
      exact (Option.some.inj hw').symm
  | none =>
      rw [insert_absent_eq c key value hl] at hw
      obtain ⟨m1, m2, m3, m4⟩ := insert_mid_props c hwf key value hl
      have hw' : hmLookup (LruCache.evict_if_needed
          { c with data := hmInsert c.data key value,
                   order := key :: c.order }).data key = some w := hw
      have := evict_lookup_some
        { c with data := hmInsert c.data key value, order := key :: c.order }
        m1 m2 m3 m4 key w hw'
      have h2 : hmLookup (hmInsert c.data key value) key = some w := this
      rw [hmLookup_hmInsert_self] at h2
      exact (Option.some.inj h2).symm

theorem insert_lookup_mono (c : LruCache K V) (hwf : WF c) (key k' : K)
    (value : V) (hne : k' ≠ key) :
    ∀ w, hmLookup (c.insert k' value).1.data key = some w →
      hmLookup c.data key = some w := by
  intro w hw
  cases hl : hmLookup c.data k' with
  | some old =>
      rw [insert_present_eq c k' value old hl] at hw
      have hw' : hmLookup (LruCache.move_to_front
          { c with data := hmInsert c.data k' value } k').data key =
          some w := hw
      rw [move_to_front_data, hmLookup_hmInsert_ne c.data k' key value
        (fun h => hne h.symm)] at hw'
      exact hw'
  | none =>
      rw [insert_absent_eq c k' value hl] at hw
      obtain ⟨m1, m2, m3, m4⟩ := insert_mid_props c hwf k' value hl
      have hw' : hmLookup (LruCache.evict_if_needed
          { c with data := hmInsert c.data k' value,
                   order := k' :: c.order }).data key = some w := hw
      have := evict_lookup_some
        { c with data := hmInsert c.data k' value, order := k' :: c.order }
        m1 m2 m3 m4 key w hw'
      have h2 : hmLookup (hmInsert c.data k' value) key = some w := this
      rw [hmLookup_hmInsert_ne c.data k' key value
        (fun h => hne h.symm)] at h2
      exact h2

theorem get_data (c : LruCache K V) (key : K) :
    (c.get key).1.data = c.data := by
  cases hl : hmLookup c.data key with
  | some v =>
      rw [get_present_eq c key v hl]
      exact move_to_front_data c key
  | none =>
      rw [get_absent_eq c key hl]

theorem remove_data (c : LruCache K V) (key : K) :
    (c.remove key).1.data = (hmRemove c.data key).1 := by
  cases hl : hmLookup c.data key with
  | some v =>
      rw [remove_present_eq c key v hl]
  | none =>
      rw [remove_absent_eq c key hl]
      exact (hmRemove_fst_of_not_mem c.data key
        ((hmLookup_eq_none c.data key).mp hl)).symm

theorem move_to_front_eq_of_mem (c : LruCache K V) (key : K)
    (h : key ∈ c.order) :
    c.move_to_front key = { c with order := key :: c.order.erase key } := by
  unfold LruCache.move_to_front
  rw [if_pos h]

theorem getLast_not_mem_dropLast (l : List K) (hne : l ≠ []) (h : l.Nodup) :
    l.getLast hne ∉ l.dropLast := by
  have hd : l.dropLast ++ [l.getLast hne] = l := List.dropLast_append_getLast hne
  have h2 : (l.dropLast ++ [l.getLast hne]).Nodup := by
    rw [hd]
    exact h
  obtain ⟨-, -, hdisj⟩ := List.nodup_append.mp h2
  intro hmem
  exact hdisj hmem (List.mem_singleton.mpr rfl)

theorem get_capacity (c : LruCache K V) (key : K) :
    (c.get key).1.capacity = c.capacity := by
  cases hl : hmLookup c.data key with
  | some v =>
      rw [get_present_eq c key v hl]
      exact move_to_front_capacity c key
  | none =>
      rw [get_absent_eq c key hl]

theorem remove_capacity (c : LruCache K V) (key : K) :
    (c.remove key).1.capacity = c.capacity := by
  cases hl : hmLookup c.data key with
  | some v =>
      rw [remove_present_eq c key v hl]
  | none =>
      rw [remove_absent_eq c key hl]

theorem applyOp_capacity (c : LruCache K V) (op : Op K V) :
    (applyOp c op).capacity = c.capacity := by
  cases op with
  | insert k v => exact insert_capacity c k v
  | get k => exact get_capacity c k
  | peek k => rfl
  | remove k => exact remove_capacity c k
  | len => rfl
  | is_empty => rfl
  | clear => rfl

theorem runOps_capacity (c : LruCache K V) (ops : List (Op K V)) :
    (runOps c ops).capacity = c.capacity := by
  induction ops generalizing c with
  | nil => rfl
  | cons op rest ih => rw [show runOps c (op :: rest) = runOps (applyOp c op) rest from rfl,
      ih (applyOp c op), applyOp_capacity]

/-! ## Tracking the latest inserted value of a fixed key (round-trip) -/

/-- The latest value inserted for `key` across `ops`, starting from `v`. -/
def latestValue (key : K) (v : V) (ops : List (Op K V)) : V :=
  ops.foldl
    (fun acc op =>
      match op with
      | Op.insert k w => if k = key then w else acc
      | _ => acc) v

theorem applyOp_lookup_tracked (c : LruCache K V) (hwf : WF c) (op : Op K V)
    (key : K) (acc : V)
    (hprev : ∀ w, hmLookup c.data key = some w → w = acc) :
    ∀ w, hmLookup (applyOp c op).data key = some w →
      w = (match op with
           | Op.insert k v' => if k = key then v' else acc
           | _ => acc) := by
  intro w hw
  cases op with
  | insert k v' =>
      by_cases hk : k = key
      · subst hk
        simp only [if_pos rfl]
        exact insert_lookup_key c hwf k v' w hw
      · simp only [if_neg hk]
        exact hprev w (insert_lookup_mono c hwf key k v' hk w hw)
  | get k =>
      apply hprev
      rw [← get_data c k]
      exact hw
  | peek k => exact hprev w hw
  | remove k =>
      apply hprev
      have hw' : hmLookup (hmRemove c.data k).1 key = some w := by
        rw [← remove_data c k]
        exact hw
      by_cases hk : k = key
      · subst hk
        rw [hmLookup_hmRemove_self c.data k hwf.keys_nodup] at hw'
        exact absurd hw' (by simp)
      · rw [hmLookup_hmRemove_ne c.data k key (fun h => hk h.symm)] at hw'
        exact hw'
  | len => exact hprev w hw
  | is_empty => exact hprev w hw
  | clear =>
      exact absurd hw (by simp [LruCache.clear, hmLookup])

theorem runOps_lookup_tracked (key : K) (ops : List (Op K V)) :
    ∀ (c : LruCache K V), WF c → ∀ (acc : V),
      (∀ w, hmLookup c.data key = some w → w = acc) →
      ∀ w, hmLookup (runOps c ops).data key = some w →
        w = latestValue key acc ops := by
  induction ops with
  | nil => exact fun c _ acc hprev w hw => hprev w hw
  | cons op rest ih =>
      intro c hwf acc hprev w hw
      exact ih (applyOp c op) (WF_applyOp hwf op) _
        (applyOp_lookup_tracked c hwf op key acc hprev) w hw

/-- The invariant stated by the spec: `len(entries) == len(recency) <=
capacity`, no duplicate keys in the recency order, and the keys of the data
map are exactly the keys of the recency order. -/
def CacheInv (c : LruCache K V) : Prop :=
  c.data.length = c.order.length ∧
  c.order.length ≤ c.capacity ∧
  c.order.Nodup ∧
  (∀ k ∈ c.data.map Prod.fst, k ∈ c.order) ∧
  (∀ k ∈ c.order, k ∈ c.data.map Prod.fst)

/-- A concrete well-formed cache used to instantiate the contracts. -/
def exCache : LruCache Nat String :=
  { capacity := 2, data := [(1, "one"), (2, "two")], order := [2, 1] }

/-! ## The claims -/

/-- Claim C1: after every sequence of public operations on a freshly
constructed cache, the number of entries in the data map equals the length of
the recency order, that count is at most the capacity, the recency order
contains no duplicate keys, and the data-map keys are exactly the
recency-order keys. -/
theorem lru_invariant_all_ops {K V : Type} [DecidableEq K] (cap : Nat)
    (ops : List (Op K V)) :
    CacheInv (runOps (LruCache.new K V cap) ops) ∧
    (runOps (LruCache.new K V cap) ops).capacity = cap := by
  have hwf := WF_runOps (WF_new cap) ops
  exact ⟨⟨hwf.len_eq, hwf.cap_bound, hwf.order_nodup, hwf.keys_sub,
    hwf.order_sub⟩, runOps_capacity _ ops⟩

/-- Claim C2: `insert` replaces and promotes a present key and returns the
old value; for an absent key it stores the value at the most-recently-used
position, returns `none`, and evicts the tail of the recency order (with its
value) exactly when the entry count then exceeds the capacity. -/
theorem insert_contract (c : LruCache K V) (hwf : WF c) (key : K)
    (value : V) :
    (∀ old, hmLookup c.data key = some old →
      (c.insert key value).2 = some old ∧
      (c.insert key value).1.order = key :: c.order.erase key ∧
      hmLookup (c.insert key value).1.data key = some value ∧
      (∀ k, k ≠ key →
        hmLookup (c.insert key value).1.data k = hmLookup c.data k)) ∧
    (hmLookup c.data key = none →
      (c.insert key value).2 = none ∧
      (if c.order.length + 1 > c.capacity then
        (c.insert key value).1.order = (key :: c.order).dropLast ∧
        hmLookup (c.insert key value).1.data
          ((key :: c.order).getLast (List.cons_ne_nil key c.order)) = none ∧
        (∀ k ∈ (c.insert key value).1.order,
          hmLookup (c.insert key value).1.data k =
            if k = key then some value else hmLookup c.data k)
       else
        (c.insert key value).1.order = key :: c.order ∧
        hmLookup (c.insert key value).1.data key = some value ∧
        (∀ k, k ≠ key →
          hmLookup (c.insert key value).1.data k = hmLookup c.data k))) := by
  constructor
  · intro old h
    obtain ⟨p1, p2, p3, p4, p5, p6, p7⟩ :=
      insert_present_spec c hwf key value old h
    exact ⟨p1, p3, p4, p5⟩
  · intro h
    obtain ⟨m1, m2, m3, m4⟩ := insert_mid_props c hwf key value h
    by_cases hover : c.order.length + 1 > c.capacity
    · have hfull : c.order.length = c.capacity := by
        have := hwf.cap_bound
        omega
      rw [insert_absent_overflow c key value h hfull, if_pos hover]
      refine ⟨rfl, rfl, ?_, ?_⟩
      · show hmLookup (hmRemove (hmInsert c.data key value)
            ((key :: c.order).getLast (List.cons_ne_nil key c.order))).1
            ((key :: c.order).getLast (List.cons_ne_nil key c.order)) = none
        exact hmLookup_hmRemove_self _ _ m1
      · intro k hk
        have hk' : k ∈ (key :: c.order).dropLast := hk
        have hlast : (key :: c.order).getLast (List.cons_ne_nil key c.order) ∉
            (key :: c.order).dropLast :=
          getLast_not_mem_dropLast _ _ m2
        have hkne : k ≠
            (key :: c.order).getLast (List.cons_ne_nil key c.order) := by
          intro he
          rw [he] at hk'
          exact hlast hk'
        show hmLookup (hmRemove (hmInsert c.data key value)
            ((key :: c.order).getLast (List.cons_ne_nil key c.order))).1 k =
          if k = key then some value else hmLookup c.data k
        rw [hmLookup_hmRemove_ne _ _ _ hkne]
        by_cases hkey : k = key
        · rw [if_pos hkey, hkey]
          exact hmLookup_hmInsert_self c.data key value
        · rw [if_neg hkey]
          exact hmLookup_hmInsert_ne c.data key k value hkey
    · have hlt : c.order.length < c.capacity := by omega
      rw [insert_absent_no_overflow c key value h hlt, if_neg hover]
      refine ⟨rfl, rfl, ?_, ?_⟩
      · show hmLookup (hmInsert c.data key value) key = some value
        exact hmLookup_hmInsert_self c.data key value
      · intro k hk
        show hmLookup (hmInsert c.data key value) k = hmLookup c.data k
        exact hmLookup_hmInsert_ne c.data key k value hk

theorem insert_contract_witness :
    WF exCache ∧ hmLookup exCache.data 3 = none ∧
    (exCache.insert 3 "three").2 = none :=
  ⟨by decide, by decide,
   ((insert_contract exCache (by decide) 3 "three").2 (by decide)).1⟩

/-- Claim C3: the eviction policy is pure LRU: inserting a new key into a
full cache evicts exactly one entry, the tail of the recency order; recency
is updated on every `get` hit; and the concrete scenario of the claim holds:
with capacity 2, `insert 1; insert 2; get 1; insert 3` evicts key 2 and
keeps key 1. -/
theorem eviction_is_lru (c : LruCache K V) (hwf : WF c) (key : K) (value : V)
    (habs : hmLookup c.data key = none) (hfull : c.order.length = c.capacity)
    (hne : c.order ≠ []) :
    ((c.insert key value).2 = none ∧
     (c.insert key value).1.order = key :: c.order.dropLast ∧
     (c.insert key value).1.order.length = c.order.length ∧
     hmLookup (c.insert key value).1.data (c.order.getLast hne) = none ∧
     (∀ k ∈ (c.insert key value).1.order,
       hmLookup (c.insert key value).1.data k =
         if k = key then some value else hmLookup c.data k) ∧
     (∀ k, k ∈ c.order → ∀ v, hmLookup c.data k = some v →
       (c.get k).1.order = k :: c.order.erase k)) ∧
    (let c0 := LruCache.new Nat String 2
     let c1 := (c0.insert 1 "one").1
     let c2 := (c1.insert 2 "two").1
     let c3 := (c2.get 1).1
     let c4 := (c3.insert 3 "three").1
     let g1 := c4.get 1
     let g2 := g1.1.get 2
     let g3 := g2.1.get 3
     g1.2 = some "one" ∧ g2.2 = none ∧ g3.2 = some "three") := by
  obtain ⟨m1, m2, m3, m4⟩ := insert_mid_props c hwf key value habs
  have hpos : 0 < c.order.length := List.length_pos.mpr hne
  refine ⟨?_, by decide⟩
  rw [insert_absent_overflow c key value habs hfull]
  have hdrop : (key :: c.order).dropLast = key :: c.order.dropLast :=
    List.dropLast_cons_of_ne_nil hne
  have hlastc : (key :: c.order).getLast (List.cons_ne_nil key c.order) =
      c.order.getLast hne := List.getLast_cons hne
  refine ⟨rfl, hdrop, ?_, ?_, ?_, ?_⟩
  · show (key :: c.order).dropLast.length = c.order.length
    rw [List.length_dropLast, List.length_cons]
    omega
  · show hmLookup (hmRemove (hmInsert c.data key value)
        ((key :: c.order).getLast (List.cons_ne_nil key c.order))).1
        (c.order.getLast hne) = none
    rw [hlastc]
    exact hmLookup_hmRemove_self _ _ m1
  · intro k hk
    have hk' : k ∈ (key :: c.order).dropLast := hk
    have hlast : (key :: c.order).getLast (List.cons_ne_nil key c.order) ∉
        (key :: c.order).dropLast :=
      getLast_not_mem_dropLast _ _ m2
    have hkne : k ≠ (key :: c.order).getLast (List.cons_ne_nil key c.order) := by
      intro he
      rw [he] at hk'
      exact hlast hk'
    show hmLookup (hmRemove (hmInsert c.data key value)
        ((key :: c.order).getLast (List.cons_ne_nil key c.order))).1 k =
      if k = key then some value else hmLookup c.data k
    rw [hmLookup_hmRemove_ne _ _ _ hkne]
    by_cases hkey : k = key
    · rw [if_pos hkey, hkey]
      exact hmLookup_hmInsert_self c.data key value
    · rw [if_neg hkey]
      exact hmLookup_hmInsert_ne c.data key k value hkey
  · intro k hk v hv
    rw [get_present_eq c k v hv, move_to_front_eq_of_mem c k hk]

theorem eviction_is_lru_witness :
    WF exCache ∧
    (exCache.insert 3 "three").1.order = 3 :: exCache.order.dropLast :=
  ⟨by decide,
   ((eviction_is_lru exCache (by decide) 3 "three" (by decide) (by decide)
      (by decide)).1).2.1⟩

/-- Claim C4: a `get` hit promotes the key to the most-recently-used position
and returns its value; a `get` miss returns `none` and leaves the entire
cache state (entries, recency order, capacity) unchanged. -/
theorem get_contract (c : LruCache K V) (hwf : WF c) (key : K) :
    (∀ v, hmLookup c.data key = some v →
      c.get key = ({ c with order := key :: c.order.erase key }, some v)) ∧
    (hmLookup c.data key = none → c.get key = (c, none)) := by
  constructor
  · intro v hv
    rw [get_present_eq c key v hv, move_to_front_eq_of_mem c key
      (hwf.keys_sub key ((hmLookup_isSome c.data key).mp (by rw [hv]; rfl)))]
  · intro hv
    exact get_absent_eq c key hv

theorem get_contract_witness :
    WF exCache ∧
    exCache.get 1 =
      ({ exCache with order := 1 :: exCache.order.erase 1 }, some "one") :=
  ⟨by decide, (get_contract exCache (by decide) 1).1 "one" (by decide)⟩

/-- Claim C5: `peek` returns exactly the value `get` would return but never
modifies any part of the cache state (it takes `&self`); in particular a
peeked key is not protected from eviction, as the concrete
capacity-2 scenario shows. -/
theorem peek_contract (c : LruCache K V) (key : K) :
    c.peek key = (c.get key).2 ∧
    applyOp c (Op.peek key) = c ∧
    (let c4 := runOps (LruCache.new Nat String 2)
       [Op.insert 1 "a", Op.insert 2 "b", Op.peek 1, Op.insert 3 "c"]
     let g1 := c4.get 1
     let g3 := g1.1.get 3
     g1.2 = none ∧ g3.2 = some "c") := by
  refine ⟨?_, rfl, by decide⟩
  cases hl : hmLookup c.data key with
  | some v =>
      rw [get_present_eq c key v hl]
      exact hl
  | none =>
      rw [get_absent_eq c key hl]
      exact hl

/-- Claim C6: `remove` deletes a present key from both the data map and the
recency order and returns its value, leaving the relative order of all
remaining keys unchanged (the new order is a sublist of the old one); on an
absent key it returns `none` and changes no state. -/
theorem remove_contract (c : LruCache K V) (hwf : WF c) (key : K) :
    (∀ v, hmLookup c.data key = some v →
      (c.remove key).2 = some v ∧
      (c.remove key).1.capacity = c.capacity ∧
      hmLookup (c.remove key).1.data key = none ∧
      (∀ k, k ≠ key → hmLookup (c.remove key).1.data k = hmLookup c.data k) ∧
      (c.remove key).1.order.Sublist c.order ∧
      (∀ k, k ∈ (c.remove key).1.order ↔ (k ∈ c.order ∧ k ≠ key))) ∧
    (hmLookup c.data key = none → c.remove key = (c, none)) := by
  constructor
  · intro v hv
    rw [remove_present_eq c key v hv]
    refine ⟨rfl, rfl, ?_, ?_, ?_, ?_⟩
    · show hmLookup (hmRemove c.data key).1 key = none
      exact hmLookup_hmRemove_self c.data key hwf.keys_nodup
    · intro k hk
      show hmLookup (hmRemove c.data key).1 k = hmLookup c.data k
      exact hmLookup_hmRemove_ne c.data key k hk
    · show (c.order.filter (fun k => k != key)).Sublist c.order
      exact List.filter_sublist c.order
    · intro k
      show k ∈ c.order.filter (fun k => k != key) ↔ (k ∈ c.order ∧ k ≠ key)
      rw [List.mem_filter]
      simp [bne_iff_ne]
  · intro hv
    exact remove_absent_eq c key hv

theorem remove_contract_witness :
    (WF exCache ∧ (exCache.remove 1).2 = some "one") ∧
    (WF (LruCache.new Nat String 2) ∧
      (LruCache.new Nat String 2).remove 999 =
        (LruCache.new Nat String 2, none)) :=
  ⟨⟨by decide, ((remove_contract exCache (by decide) 1).1 "one" (by decide)).1⟩,
   ⟨by decide,
    (remove_contract (LruCache.new Nat String 2) (by decide) 999).2
      (by decide)⟩⟩

/-- Claim C7: on a capacity-0 cache every `insert` returns `none` and leaves
the cache empty (the new entry is inserted and immediately evicted):
`len` is 0 and a `get` of the key misses; the operation is total, so it
cannot panic. -/
theorem zero_capacity_insert (c : LruCache K V) (hwf : WF c)
    (hcap : c.capacity = 0) (key : K) (value : V) :
    c.insert key value = (c, none) ∧
    c.len = 0 ∧
    (c.insert key value).1.len = 0 ∧
    ((c.insert key value).1.get key).2 = none := by
  have horder : c.order = [] :=
    List.eq_nil_of_length_eq_zero (by have := hwf.cap_bound; omega)
  have hdata : c.data = [] :=
    List.eq_nil_of_length_eq_zero (by rw [hwf.len_eq, horder]; rfl)
  have hc : c = { capacity := 0, data := [], order := [] } := by
    rw [← hcap, ← hdata, ← horder]
  have hins : c.insert key value = (c, none) := by
    rw [hc]
    rw [insert_absent_overflow
      { capacity := 0, data := [], order := [] } key value rfl rfl]
    simp [hmInsert, hmRemove]
  refine ⟨hins, ?_, ?_, ?_⟩
  · rw [hc]
    rfl
  · rw [hins, hc]
    rfl
  · rw [hins]
    rw [get_absent_eq c key (by rw [hdata]; rfl)]

theorem zero_capacity_insert_witness :
    WF (LruCache.new Nat String 0) ∧
    (LruCache.new Nat String 0).insert 1 "a" =
      (LruCache.new Nat String 0, none) :=
  ⟨by decide,
   (zero_capacity_insert (LruCache.new Nat String 0) (by decide) rfl 1 "a").1⟩

/-- Claim C8: `clear` empties both structures while keeping the capacity, and
the result is exactly a freshly constructed cache of the same capacity, so
every subsequent operation sequence behaves identically on both. -/
theorem clear_resets_fully (c : LruCache K V) :
    c.clear = LruCache.new K V c.capacity ∧
    c.clear.len = 0 ∧
    c.clear.is_empty = true ∧
    c.clear.capacity = c.capacity ∧
    (∀ ops : List (Op K V), runOps c.clear ops =
      runOps (LruCache.new K V c.capacity) ops) :=
  ⟨rfl, rfl, rfl, rfl, fun _ => rfl⟩

/-- Claim C9: round-trip: if after `insert key value` the key has not been
evicted by the later operations (it is still present), then `get` returns
exactly the latest value inserted for that key (`value` itself when no later
insert touched the key). -/
theorem round_trip (c : LruCache K V) (hwf : WF c) (key : K) (value : V)
    (ops : List (Op K V))
    (hsur : (hmLookup (runOps (c.insert key value).1 ops).data key).isSome) :
    ((runOps (c.insert key value).1 ops).get key).2 =
      some (latestValue key value ops) := by
  obtain ⟨w, hw⟩ := Option.isSome_iff_exists.mp hsur
  have hwf1 : WF (c.insert key value).1 := WF_insert hwf key value
  have hval := runOps_lookup_tracked key ops (c.insert key value).1 hwf1 value
    (insert_lookup_key c hwf key value) w hw
  rw [hval] at hw
  rw [get_present_eq _ key _ hw]

theorem round_trip_witness :
    WF (LruCache.new Nat String 2) ∧
    ((runOps ((LruCache.new Nat String 2).insert 1 "a").1
        [Op.insert 2 "b", Op.get 1]).get 1).2 =
      some (latestValue 1 "a" [Op.insert 2 "b", Op.get 1]) :=
  ⟨by decide, round_trip (LruCache.new Nat String 2) (by decide) 1 "a"
    [Op.insert 2 "b", Op.get 1] (by decide)⟩

/-- Claim C10: inserting an already-present key never evicts and never
removes any other key, even when the cache is full: the key set and the entry
count are unchanged, every other key keeps its value, and only the updated
key moves to the front of the recency order (the relative order of the other
keys is preserved by `List.erase`). -/
theorem insert_existing_frame (c : LruCache K V) (hwf : WF c) (key : K)
    (value old : V) (h : hmLookup c.data key = some old) :
    (c.insert key value).2 = some old ∧
    (c.insert key value).1.capacity = c.capacity ∧
    (c.insert key value).1.len = c.len ∧
    (c.insert key value).1.order = key :: c.order.erase key ∧
    (∀ k, k ∈ (c.insert key value).1.order ↔ k ∈ c.order) ∧
    hmLookup (c.insert key value).1.data key = some value ∧
    (∀ k, k ≠ key →
      hmLookup (c.insert key value).1.data k = hmLookup c.data k) := by
  obtain ⟨p1, p2, p3, p4, p5, p6, p7⟩ :=
    insert_present_spec c hwf key value old h
  exact ⟨p1, p2, p7, p3, p6, p4, p5⟩

theorem insert_existing_frame_witness :
    WF exCache ∧
    (exCache.insert 1 "uno").2 = some "one" ∧
    (exCache.insert 1 "uno").1.len = exCache.len :=
  ⟨by decide,
   (insert_existing_frame exCache (by decide) 1 "uno" "one" (by decide)).1,
   (insert_existing_frame exCache (by decide) 1 "uno" "one" (by decide)).2.2.1⟩

end Commons
